import Mathlib

/-!
The C binding of the MMKV key-value store (ffi-mmkv).

A shallow embedding of `POSIX/lua/ffi-mmkv.cpp`, the `extern "C"` layer a LuaJIT
host calls, together with the one-time-initialisation token of
`Win32/MMKV/ThreadLock.h`.

Conventions of the embedding.

* A C pointer that may be `NULL` is an `Option`; `none` is `NULL`.
* The object behind a store handle is a value of `MMKV`; a function that may
  change it returns the object as it is after the call.
* `uint32_t`, `size_t` and `int` values are natural numbers and integers; a
  conversion that can lose bits is written out (`toInt32`, `negSizeT`,
  `% 2 ^ 32`).
* A function that reads or writes through a pointer returns `Option`, where
  `none` stands for undefined behaviour: an access outside the object the
  pointer addresses, or through a pointer whose block was freed.
* `MMKV.h` is not among the sources.  The member functions the binding calls
  are modelled from the specification; `totalSize`, `close` and
  `MMKV::mmkvWithID`, whose results the specification does not determine, are
  parameters of the functions that call them.
-/

namespace FfiMmkv

/-! ## Machine integers -/

/-- Conversion of an unsigned value to a 32-bit two's complement `int`: the low
32 bits of `n`, read as a signed number. -/
def toInt32 (n : Nat) : Int :=
  if n % 2 ^ 32 < 2 ^ 31 then ((n % 2 ^ 32 : Nat) : Int)
  else ((n % 2 ^ 32 : Nat) : Int) - 2 ^ 32

/-- Unary minus on a 64-bit `size_t`: `-n` is `2 ^ 64 - n` modulo `2 ^ 64`.
(With a 32-bit `size_t` the low 32 bits, all that `toInt32` keeps, are the
same.) -/
def negSizeT (n : Nat) : Nat := (2 ^ 64 - n % 2 ^ 64) % 2 ^ 64

/-- The value `(size_t)-1`. -/
def SIZE_MAX : Nat := 2 ^ 64 - 1

/-! ## Raw memory -/

/-- C `memcpy(dst, src, n)` on the bytes reachable from `dst` and `src`:
the first `n` bytes of `dst` are replaced by the first `n` bytes of `src`.
Undefined when either object is shorter than `n`. -/
def memcpy (dst src : List UInt8) (n : Nat) : Option (List UInt8) :=
  if n ≤ dst.length ∧ n ≤ src.length then some (src.take n ++ dst.drop n) else none

/-- C `memset(dst, b, n)`: the first `n` bytes of `dst` become `b`.
Undefined when the object is shorter than `n`. -/
def memset (dst : List UInt8) (b : UInt8) (n : Nat) : Option (List UInt8) :=
  if n ≤ dst.length then some (List.replicate n b ++ dst.drop n) else none

/-- C `((uint8_t *)dst)[i] = b`.  Undefined when `i` is outside the object. -/
def storeByte (dst : List UInt8) (i : Nat) (b : UInt8) : Option (List UInt8) :=
  if i < dst.length then some (dst.set i b) else none

/-! ## The store behind a handle -/

/-- Modelled from the spec: a Key Index entry (section 3), the current value of
a key together with its optional expiration stamp `expireAt`.  `MMKV.h` is not
among the sources. -/
structure Entry where
  value : List UInt8
  expireAt : Option Nat
deriving DecidableEq, Repr

/-- Modelled from the spec: section 4.5, a record whose `expireAt` is in the
past is treated as absent; a record without a stamp never expires. -/
def Entry.live (now : Nat) (e : Entry) : Bool :=
  match e.expireAt with
  | none => true
  | some t => decide (now ≤ t)

/-- Modelled from the spec: the object behind a store handle, class `MMKV` of
`MMKV.h` (not among the sources).  `index` is the Key Index (section 3: key to
most recent record), `autoExpire` the duration given to `enableAutoExpire`
while expiration is enabled (section 4.5), `now` the clock the expiration test
reads, and `storageAvailable` whether the backing file can be grown or
rewritten (section 4.2, `StorageUnavailable`). -/
structure MMKV where
  index : List (String × Entry)
  autoExpire : Option Nat
  now : Nat
  storageAvailable : Bool
deriving DecidableEq, Repr

/-- Modelled from the spec: `lookup(key)` of section 4.3 on the raw index, the
first (most recent) entry recorded for `key`. -/
def indexFind (key : String) : List (String × Entry) → Option Entry
  | [] => none
  | (k, e) :: rest => if k = key then some e else indexFind key rest

/-- Modelled from the spec: `delete` of section 4.3, which removes the key from
the index entirely and leaves every other entry as it is. -/
def indexErase (key : String) : List (String × Entry) → List (String × Entry)
  | [] => []
  | (k, e) :: rest =>
    if k = key then indexErase key rest else (k, e) :: indexErase key rest

/-- Modelled from the spec: `lookup` with the lazy expiration test of section
4.5: an entry whose `expireAt` is in the past is absent. -/
def MMKV.lookup (m : MMKV) (key : String) : Option Entry :=
  match indexFind key m.index with
  | some e => if e.live m.now then some e else none
  | none => none

/-- Modelled from the spec: `MMKV::getBytes(key, result)`; `some v` stands for a
`true` return with `result` holding the bytes `v` of the key's current,
non-expired value, `none` for `false`.  A read: the store is not changed. -/
def MMKV.getBytes (m : MMKV) (key : String) : Option (List UInt8) :=
  (m.lookup key).map Entry.value

/-- Modelled from the spec: `MMKV::containsKey(key)`, section 4.5: `contains`
sees the same entries as `lookup`. -/
def MMKV.containsKey (m : MMKV) (key : String) : Bool :=
  (m.lookup key).isSome

/-- Modelled from the spec: `MMKV::set(value, key)`.  Section 6: `set` fails
when the value buffer is empty or the key is empty; section 4.2: it fails when
the storage cannot take the record; otherwise the record becomes the key's
current entry (last writer wins, section 4.3), stamped with `now + duration`
while expiration is enabled (section 4.5).  A failed `set` changes nothing. -/
def MMKV.set (m : MMKV) (value : List UInt8) (key : String) : Bool × MMKV :=
  if key = "" ∨ value = [] then (false, m)
  else if m.storageAvailable = false then (false, m)
  else
    (true,
      { m with
        index :=
          (key, { value := value, expireAt := m.autoExpire.map (fun d => m.now + d) })
            :: indexErase key m.index })

/-- Modelled from the spec: `MMKV::removeValueForKey(key)`, the index removal of
sections 3 and 4.3. -/
def MMKV.removeValueForKey (m : MMKV) (key : String) : MMKV :=
  { m with index := indexErase key m.index }

/-- Modelled from the spec: `MMKV::count()`, the number of index entries,
expired ones that still occupy the index included (section 6; the binding's
own comment says "entry count, including expired keys"). -/
def MMKV.count (m : MMKV) : Nat := m.index.length

/-- Modelled from the spec: `MMKV::allKeys()`, the keys of the entries that are
not expired (section 4.5), in index order. -/
def MMKV.allKeys (m : MMKV) : List String :=
  (m.index.filter (fun p => p.2.live m.now)).map Prod.fst

/-- Modelled from the spec: `MMKV::trim()`, compaction (section 4.4): only the
live entries are kept; a storage failure leaves the store as it was. -/
def MMKV.trim (m : MMKV) : MMKV :=
  if m.storageAvailable = false then m
  else { m with index := m.index.filter (fun p => p.2.live m.now) }

/-- Modelled from the spec: `MMKV::clearAll()`, compaction to zero live records
(section 4.4). -/
def MMKV.clearAll (m : MMKV) : MMKV := { m with index := [] }

/-- Modelled from the spec: `MMKV::enableAutoKeyExpire(seconds)`, section 4.5:
from now on every `set` stamps its record; existing records keep their stamp. -/
def MMKV.enableAutoKeyExpire (m : MMKV) (seconds : Nat) : Bool × MMKV :=
  (true, { m with autoExpire := some seconds })

/-- Modelled from the spec: `MMKV::disableAutoKeyExpire()`, section 4.5:
stamping stops; existing records keep their stamp. -/
def MMKV.disableAutoKeyExpire (m : MMKV) : Bool × MMKV :=
  (true, { m with autoExpire := none })

/-- The `MMKVMode` argument of `MMKV::mmkvWithID`. -/
inductive MMKVMode where
  | MMKV_SINGLE_PROCESS
  | MMKV_MULTI_PROCESS
deriving DecidableEq, Repr

/-- `enum ThreadOnceToken` of `ThreadLock.h`. -/
inductive ThreadOnceToken where
  | ThreadOnceUninitialized
  | ThreadOnceInitializing
  | ThreadOnceInitialized
deriving DecidableEq, Repr

/-- Modelled from the spec: the global `initialize()` the binding declares
`extern` (its body is not among the sources).  Section 3, Lock Token: first
use moves the token to Initialized, later calls pass through. -/
def globalInit (_token : ThreadOnceToken) : ThreadOnceToken :=
  ThreadOnceToken.ThreadOnceInitialized

/-! ## The binding: open, close, count, total size -/

/-- `ffi_mmkv_open(map_id, dir_path, multi_process)`.  `mmkvWithID` is
`MMKV::mmkvWithID(id, mode, NULL, &rootDir)`, whose result depends on the
files on disk; `token` is the global initialisation state.  Returns the handle
and the token after the call. -/
def ffi_mmkv_open (mmkvWithID : String → MMKVMode → String → Option MMKV)
    (token : ThreadOnceToken) (map_id dir_path : Option String) (multi_process : Int) :
    Option MMKV × ThreadOnceToken :=
  match map_id, dir_path with
  | some map_id, some dir_path =>
    let rootId := map_id
    let rootDir := dir_path
    let token := globalInit token
    let mode :=
      if multi_process ≠ 0 then MMKVMode.MMKV_MULTI_PROCESS
      else MMKVMode.MMKV_SINGLE_PROCESS
    (mmkvWithID rootId mode rootDir, token)
  | _, _ => (none, token)

/-- `ffi_mmkv_close(mctx)`; `close` is `MMKV::close()`.  Returns the object
behind the handle after the call. -/
def ffi_mmkv_close (close : MMKV → MMKV) (mctx : Option MMKV) : Option MMKV :=
  match mctx with
  | none => none
  | some mmkv => some (close mmkv)

/-- `ffi_mmkv_count(mctx)`. -/
def ffi_mmkv_count (mctx : Option MMKV) : Int :=
  match mctx with
  | none => -1
  | some mmkv => toInt32 mmkv.count

/-- `ffi_mmkv_total_size(mctx)`; `totalSize` is `MMKV::totalSize()`. -/
def ffi_mmkv_total_size (totalSize : MMKV → Nat) (mctx : Option MMKV) : Int :=
  match mctx with
  | none => 0
  | some mmkv => toInt32 (totalSize mmkv)

/-! ## The binding: key cursor -/

/-- `struct ffi_mmkv_keys`: the next position (`size_t index`) and the exported
key list (`vector<string> datas`). -/
structure ffi_mmkv_keys where
  index : Nat
  datas : List String
deriving DecidableEq, Repr

/-- A `struct ffi_mmkv_keys *` as the caller holds it: `NULL`, a block obtained
from `calloc` and still allocated, or a block that was given to `free` (the
caller's pointer keeps its value; `residue` is what the block held when it was
freed). -/
inductive KeysPtr where
  | null
  | live (mkeys : ffi_mmkv_keys)
  | freed (residue : ffi_mmkv_keys)
deriving DecidableEq, Repr

/-- `ffi_mmkv_all_keys(mctx)`: `calloc` zeroes the block, so `index` starts at
`0`; `datas` receives `allKeys()`. -/
def ffi_mmkv_all_keys (mctx : Option MMKV) : KeysPtr :=
  match mctx with
  | none => KeysPtr.null
  | some mmkv => KeysPtr.live { index := 0, datas := mmkv.allKeys }

/-- `ffi_mmkv_next_key(keys, reclaim_now)`: the returned `const char *` (`none`
is `NULL`) and the block behind `keys` after the call.  `index` is a `size_t`,
so the test `index < 0` is a comparison of naturals; `index = -1` stores
`SIZE_MAX`; `index += 1` cannot wrap because `index < datas.size()`.  Reading
`mkeys->index` from a block that was freed is undefined. -/
def ffi_mmkv_next_key (keys : KeysPtr) (reclaim_now : Int) : Option (Option String × KeysPtr) :=
  match keys with
  | KeysPtr.null => some (none, KeysPtr.null)
  | KeysPtr.freed _ => none
  | KeysPtr.live mkeys =>
    if mkeys.index < 0 then some (none, KeysPtr.live mkeys)
    else if reclaim_now ≠ 0 ∨ mkeys.index ≥ mkeys.datas.length then
      some (none, KeysPtr.freed { mkeys with index := SIZE_MAX })
    else
      some (mkeys.datas[mkeys.index]?, KeysPtr.live { mkeys with index := mkeys.index + 1 })

/-- The caller's loop: `n` successive calls `ffi_mmkv_next_key(keys, 0)` on the
same pointer; the values returned, in call order, and the block after the last
call. -/
def next_keys : Nat → KeysPtr → Option (List (Option String) × KeysPtr)
  | 0, keys => some ([], keys)
  | n + 1, keys =>
    match ffi_mmkv_next_key keys 0 with
    | none => none
    | some (key, keys1) =>
      match next_keys n keys1 with
      | none => none
      | some (rest, keys2) => some (key :: rest, keys2)

/-! ## The binding: set -/

/-- `ffi_mmkv_set(mctx, key, value, vlen)`: the returned `int` and the object
behind the handle after the call.  `value` is the memory readable from the
pointer; `MMBuffer sbuffer(value, vlen)` copies its first `vlen` bytes, which
is undefined when fewer are readable.  `vlen` is a `uint32_t`, so `vlen <= 0`
holds for `0` only. -/
def ffi_mmkv_set (mctx : Option MMKV) (key : Option String) (value : Option (List UInt8))
    (vlen : Nat) : Option (Int × Option MMKV) :=
  match mctx, key, value with
  | some mmkv, some key, some value =>
    if vlen ≤ 0 then some (0, some mmkv)
    else if value.length < vlen then none
    else
      let skey := key
      let sbuffer := value.take vlen
      let res := mmkv.set sbuffer skey
      some (if true = res.1 then 1 else 0, some res.2)
  | _, _, _ => some (0, mctx)

/-! ## The binding: result buffers, get, contains, remove -/

/-- `struct ffi_mmkv_result`: `vsize` and `vlen` are `uint32_t`; `value` is the
memory `void *value` points to. -/
structure ffi_mmkv_result where
  vsize : Nat
  vlen : Nat
  value : List UInt8
deriving DecidableEq, Repr

/-- `ffi_mmkv_tmp_result(tmp, tmp_size)`, with `H = sizeof(struct
ffi_mmkv_result)`.  `tmp` is the caller's block; the scratch buffer is its
first `tmp_size` bytes.  `memset` zeroes the scratch buffer (undefined when the
block is shorter than `tmp_size`); the struct lies over bytes `[0, H)` and
`value = tmp + H` addresses the rest, bytes `[H, tmp_size)`.  The inner
`Option` is the returned pointer. -/
def ffi_mmkv_tmp_result (H : Nat) (tmp : Option (List UInt8)) (tmp_size : Nat) :
    Option (Option ffi_mmkv_result) :=
  match tmp with
  | none => some none
  | some tmp =>
    if tmp_size ≤ H then some none
    else
      match memset tmp 0 tmp_size with
      | none => none
      | some tmp =>
        some (some
          { vsize := (tmp_size - H) % 2 ^ 32
            vlen := 0
            value := (tmp.take tmp_size).drop H })

/-- What a call of `ffi_mmkv_get` or `ffi_mmkv_rm` leaves behind: the returned
`int`, the object behind the handle and the result struct with its value
memory. -/
structure Outcome where
  ret : Int
  mctx : Option MMKV
  r : Option ffi_mmkv_result
deriving DecidableEq, Repr

/-- `ffi_mmkv_get(mctx, key, r)`.  `r->vsize > svalue.length()` compares as
`size_t`; `r->vlen = svalue.length()` narrows to `uint32_t`;
`return -svalue.length()` negates a `size_t` and narrows it to `int`. -/
def ffi_mmkv_get (mctx : Option MMKV) (key : Option String) (r : Option ffi_mmkv_result) :
    Option Outcome :=
  match mctx, key, r with
  | some mmkv, some key, some r =>
    let skey := key
    match mmkv.getBytes skey with
    | some svalue =>
      if r.vsize > svalue.length then
        match memcpy r.value svalue svalue.length with
        | none => none
        | some value =>
          match storeByte value svalue.length 0 with
          | none => none
          | some value =>
            some
              { ret := 1
                mctx := some mmkv
                r := some { r with value := value, vlen := svalue.length % 2 ^ 32 } }
      else
        some { ret := toInt32 (negSizeT svalue.length), mctx := some mmkv, r := some r }
    | none => some { ret := 0, mctx := some mmkv, r := some r }
  | _, _, _ => some { ret := 0, mctx := mctx, r := r }

/-- `ffi_mmkv_contains(mctx, key)`: the `bool` of `containsKey` as an `int`. -/
def ffi_mmkv_contains (mctx : Option MMKV) (key : Option String) : Int :=
  match mctx, key with
  | some mmkv, some key =>
    let mkey := key
    if mmkv.containsKey mkey then 1 else 0
  | _, _ => 0

/-- `ffi_mmkv_rm(mctx, key, r)`: as `ffi_mmkv_get`, with
`removeValueForKey(skey)` after the copy. -/
def ffi_mmkv_rm (mctx : Option MMKV) (key : Option String) (r : Option ffi_mmkv_result) :
    Option Outcome :=
  match mctx, key, r with
  | some mmkv, some key, some r =>
    let skey := key
    match mmkv.getBytes skey with
    | some svalue =>
      if r.vsize > svalue.length then
        match memcpy r.value svalue svalue.length with
        | none => none
        | some value =>
          match storeByte value svalue.length 0 with
          | none => none
          | some value =>
            some
              { ret := 1
                mctx := some (mmkv.removeValueForKey skey)
                r := some { r with value := value, vlen := svalue.length % 2 ^ 32 } }
      else
        some { ret := toInt32 (negSizeT svalue.length), mctx := some mmkv, r := some r }
    | none => some { ret := 0, mctx := some mmkv, r := some r }
  | _, _, _ => some { ret := 0, mctx := mctx, r := r }

/-! ## The binding: trim, clear, expiration -/

/-- `ffi_mmkv_trim(mctx)`: the object behind the handle after the call. -/
def ffi_mmkv_trim (mctx : Option MMKV) : Option MMKV :=
  match mctx with
  | none => none
  | some mmkv => some mmkv.trim

/-- `ffi_mmkv_clear(mctx)`: the object behind the handle after the call. -/
def ffi_mmkv_clear (mctx : Option MMKV) : Option MMKV :=
  match mctx with
  | none => none
  | some mmkv => some mmkv.clearAll

/-- `ffi_mmkv_enable_auto_key_expired(mctx, seconds)`. -/
def ffi_mmkv_enable_auto_key_expired (mctx : Option MMKV) (seconds : Nat) : Int × Option MMKV :=
  match mctx with
  | none => (0, none)
  | some mmkv =>
    let res := mmkv.enableAutoKeyExpire seconds
    (if res.1 then 1 else 0, some res.2)

/-- `ffi_mmkv_disable_auto_key_expire(mctx)`. -/
def ffi_mmkv_disable_auto_key_expire (mctx : Option MMKV) : Int × Option MMKV :=
  match mctx with
  | none => (0, none)
  | some mmkv =>
    let res := mmkv.disableAutoKeyExpire
    (if res.1 then 1 else 0, some res.2)

/-! ## Sample stores and buffers -/

/-- A store with no entries, expiration disabled, storage available. -/
def emptyStore : MMKV :=
  { index := [], autoExpire := none, now := 0, storageAvailable := true }

/-- A store holding the one-byte value `7` under the key `"k"`. -/
def oneByteStore : MMKV :=
  { index := [("k", { value := [7], expireAt := none })]
    autoExpire := none, now := 0, storageAvailable := true }

/-- A result buffer of capacity `n`, zero-filled. -/
def zeroResult (n : Nat) : ffi_mmkv_result :=
  { vsize := n, vlen := 0, value := List.replicate n 0 }

/-- A store holding `n` zero bytes under the key `"k"`. -/
def zerosStore (n : Nat) : MMKV :=
  { index := [("k", { value := List.replicate n 0, expireAt := none })]
    autoExpire := none, now := 0, storageAvailable := true }

/-! ## Arithmetic of the return value -/

theorem toInt32_negSizeT (n : Nat) (h1 : 1 ≤ n) (h2 : n ≤ 2 ^ 31) :
    toInt32 (negSizeT n) = -(n : Int) := by
  unfold toInt32 negSizeT
  have e1 : n % 2 ^ 64 = n := Nat.mod_eq_of_lt (by omega)
  have e2 : (2 ^ 64 - n) % 2 ^ 64 = 2 ^ 64 - n := Nat.mod_eq_of_lt (by omega)
  have e3 : (2 ^ 64 - n) % 2 ^ 32 = 2 ^ 32 - n := by omega
  rw [e1, e2, e3]
  have h4 : ¬ (2 ^ 32 - n < 2 ^ 31) := by omega
  rw [if_neg h4]
  omega

theorem toInt32_negSizeT_zero : toInt32 (negSizeT 0) = 0 := by
  decide

/-! ## The index -/

theorem indexFind_indexErase_self (key : String) (l : List (String × Entry)) :
    indexFind key (indexErase key l) = none := by
  induction l with
  | nil => rfl
  | cons p rest ih =>
    obtain ⟨k, e⟩ := p
    by_cases h : k = key
    · simp [indexErase, h, ih]
    · simp [indexErase, indexFind, h, ih]

theorem indexFind_indexErase_ne (key other : String) (h : other ≠ key)
    (l : List (String × Entry)) :
    indexFind other (indexErase key l) = indexFind other l := by
  induction l with
  | nil => rfl
  | cons p rest ih =>
    obtain ⟨k, e⟩ := p
    by_cases hk : k = key
    · have hne : ¬ k = other := fun e => h (e ▸ hk)
      simp only [indexErase, indexFind, if_pos hk, if_neg hne, ih]
    · by_cases ho : k = other
      · simp only [indexErase, indexFind, if_neg hk, if_pos ho]
      · simp only [indexErase, indexFind, if_neg hk, if_neg ho, ih]

theorem getBytes_removeValueForKey_self (m : MMKV) (key : String) :
    (m.removeValueForKey key).getBytes key = none := by
  simp [MMKV.getBytes, MMKV.lookup, MMKV.removeValueForKey, indexFind_indexErase_self]

theorem getBytes_removeValueForKey_ne (m : MMKV) (key other : String) (h : other ≠ key) :
    (m.removeValueForKey key).getBytes other = m.getBytes other := by
  simp [MMKV.getBytes, MMKV.lookup, MMKV.removeValueForKey, indexFind_indexErase_ne key other h]

theorem containsKey_eq_getBytes (m : MMKV) (key : String) :
    m.containsKey key = (m.getBytes key).isSome := by
  simp [MMKV.containsKey, MMKV.getBytes]

theorem getBytes_set (m m1 : MMKV) (key : String) (value : List UInt8)
    (h : m.set value key = (true, m1)) : m1.getBytes key = some value := by
  unfold MMKV.set at h
  split at h
  · simp at h
  · split at h
    · simp at h
    · simp only [Prod.mk.injEq, true_and] at h
      subst h
      cases ha : m.autoExpire <;>
        simp [MMKV.getBytes, MMKV.lookup, indexFind, Entry.live, ha]

/-! ## The copy into the result buffer -/

/-- The value memory after a successful copy: the value, a zero byte, and the
old bytes from index `n + 1` on. -/
theorem copy_defined (dst v : List UInt8) (h : v.length < dst.length) :
    (match memcpy dst v v.length with
      | none => none
      | some value => storeByte value v.length 0)
      = some (v ++ 0 :: dst.drop (v.length + 1)) := by
  have h1 : memcpy dst v v.length = some (v ++ dst.drop v.length) := by
    simp [memcpy, Nat.le_of_lt h]
  rw [h1]
  have h2 : v.length < (v ++ dst.drop v.length).length := by
    simp only [List.length_append, List.length_drop]; omega
  simp only [storeByte, h2, if_true]
  congr 1
  rw [List.set_append_right _ _ (Nat.le_refl _)]
  simp only [Nat.sub_self]
  cases hd : dst.drop v.length with
  | nil =>
    have := congrArg List.length hd
    simp only [List.length_drop, List.length_nil] at this
    omega
  | cons a t =>
    have ht : dst.drop (v.length + 1) = t := by
      rw [← List.drop_drop, hd]; rfl
    simp [ht]

theorem ffi_mmkv_get_copy (m : MMKV) (key : String) (r : ffi_mmkv_result) (v : List UInt8)
    (hv : m.getBytes key = some v) (hfit : v.length < r.vsize)
    (hmem : r.vsize ≤ r.value.length) :
    ffi_mmkv_get (some m) (some key) (some r) =
      some
        { ret := 1
          mctx := some m
          r := some
            { r with
              value := v ++ 0 :: r.value.drop (v.length + 1)
              vlen := v.length % 2 ^ 32 } } := by
  have hc := copy_defined r.value v (by omega)
  have h1 : memcpy r.value v v.length = some (v ++ r.value.drop v.length) := by
    simp [memcpy]; omega
  rw [h1] at hc
  simp only [ffi_mmkv_get, hv, gt_iff_lt, hfit, if_true, h1]
  simp only at hc
  rw [hc]

theorem ffi_mmkv_get_small (m : MMKV) (key : String) (r : ffi_mmkv_result) (v : List UInt8)
    (hv : m.getBytes key = some v) (hsmall : r.vsize ≤ v.length) :
    ffi_mmkv_get (some m) (some key) (some r) =
      some { ret := toInt32 (negSizeT v.length), mctx := some m, r := some r } := by
  have h : ¬ (v.length < r.vsize) := by omega
  simp [ffi_mmkv_get, hv, h]

theorem ffi_mmkv_get_absent (m : MMKV) (key : String) (r : ffi_mmkv_result)
    (hv : m.getBytes key = none) :
    ffi_mmkv_get (some m) (some key) (some r) =
      some { ret := 0, mctx := some m, r := some r } := by
  simp [ffi_mmkv_get, hv]

theorem ffi_mmkv_rm_copy (m : MMKV) (key : String) (r : ffi_mmkv_result) (v : List UInt8)
    (hv : m.getBytes key = some v) (hfit : v.length < r.vsize)
    (hmem : r.vsize ≤ r.value.length) :
    ffi_mmkv_rm (some m) (some key) (some r) =
      some
        { ret := 1
          mctx := some (m.removeValueForKey key)
          r := some
            { r with
              value := v ++ 0 :: r.value.drop (v.length + 1)
              vlen := v.length % 2 ^ 32 } } := by
  have hc := copy_defined r.value v (by omega)
  have h1 : memcpy r.value v v.length = some (v ++ r.value.drop v.length) := by
    simp [memcpy]; omega
  rw [h1] at hc
  simp only [ffi_mmkv_rm, hv, gt_iff_lt, hfit, if_true, h1]
  simp only at hc
  rw [hc]

theorem ffi_mmkv_rm_small (m : MMKV) (key : String) (r : ffi_mmkv_result) (v : List UInt8)
    (hv : m.getBytes key = some v) (hsmall : r.vsize ≤ v.length) :
    ffi_mmkv_rm (some m) (some key) (some r) =
      some { ret := toInt32 (negSizeT v.length), mctx := some m, r := some r } := by
  have h : ¬ (v.length < r.vsize) := by omega
  simp [ffi_mmkv_rm, hv, h]

theorem ffi_mmkv_rm_absent (m : MMKV) (key : String) (r : ffi_mmkv_result)
    (hv : m.getBytes key = none) :
    ffi_mmkv_rm (some m) (some key) (some r) =
      some { ret := 0, mctx := some m, r := some r } := by
  simp [ffi_mmkv_rm, hv]

theorem getBytes_zerosStore (n : Nat) :
    (zerosStore n).getBytes "k" = some (List.replicate n 0) := by
  simp [zerosStore, MMKV.getBytes, MMKV.lookup, indexFind, Entry.live]

theorem ffi_mmkv_get_zerosStore (n : Nat) (r : ffi_mmkv_result) (h : r.vsize ≤ n) :
    ffi_mmkv_get (some (zerosStore n)) (some "k") (some r)
      = some { ret := toInt32 (negSizeT n), mctx := some (zerosStore n), r := some r } := by
  have hs : r.vsize ≤ (List.replicate n (0 : UInt8)).length := by
    rw [List.length_replicate]; exact h
  rw [ffi_mmkv_get_small _ _ _ _ (getBytes_zerosStore n) hs, List.length_replicate]

theorem ffi_mmkv_rm_zerosStore (n : Nat) (r : ffi_mmkv_result) (h : r.vsize ≤ n) :
    ffi_mmkv_rm (some (zerosStore n)) (some "k") (some r)
      = some { ret := toInt32 (negSizeT n), mctx := some (zerosStore n), r := some r } := by
  have hs : r.vsize ≤ (List.replicate n (0 : UInt8)).length := by
    rw [List.length_replicate]; exact h
  rw [ffi_mmkv_rm_small _ _ _ _ (getBytes_zerosStore n) hs, List.length_replicate]

theorem toInt32_negSizeT_ne_one (n : Nat) (h : n % 2 ^ 32 ≠ 2 ^ 32 - 1) :
    toInt32 (negSizeT n) ≠ 1 := by
  unfold toInt32 negSizeT
  split <;> omega

theorem ffi_mmkv_set_zerosStore (n : Nat) (h : 1 ≤ n) :
    ffi_mmkv_set (some emptyStore) (some "k") (some (List.replicate n 0)) n
      = some (1, some (zerosStore n)) := by
  have h0 : ¬ n ≤ 0 := by omega
  have hne : ¬ (List.replicate n (0 : UInt8) = []) := by
    intro e
    have := congrArg List.length e
    simp only [List.length_replicate, List.length_nil] at this
    omega
  have hk : ¬ ("k" = "") := by decide
  simp only [ffi_mmkv_set, h0, if_false, List.length_replicate, lt_self_iff_false,
    List.take_replicate, Nat.min_self, MMKV.set, hk, hne, or_self, emptyStore,
    Bool.true_eq_false, indexErase, Option.map_none', zerosStore, if_true]

/-! ## The key cursor -/

theorem next_keys_live (l : List String) :
    ∀ (k i : Nat), i + k = l.length →
      next_keys (k + 1) (KeysPtr.live { index := i, datas := l })
        = some ((l.drop i).map some ++ [none],
            KeysPtr.freed { index := SIZE_MAX, datas := l }) := by
  intro k
  induction k with
  | zero =>
    intro i hi
    have h1 : i = l.length := by omega
    subst h1
    simp [next_keys, ffi_mmkv_next_key]
  | succ k ih =>
    intro i hi
    have hlt : i < l.length := by omega
    have h1 : ¬ (l.length ≤ i) := by omega
    have hstep : ffi_mmkv_next_key (KeysPtr.live { index := i, datas := l }) 0
        = some (some l[i], KeysPtr.live { index := i + 1, datas := l }) := by
      simp [ffi_mmkv_next_key, h1, List.getElem?_eq_getElem hlt]
    have hdrop : l.drop i = l[i] :: l.drop (i + 1) := List.drop_eq_getElem_cons hlt
    rw [next_keys, hstep]
    simp only
    rw [ih (i + 1) (by omega), hdrop]
    rfl

theorem next_keys_snoc :
    ∀ (n : Nat) (p : KeysPtr) (ks : List (Option String)) (q : KeysPtr),
      next_keys n p = some (ks, q) →
      ∀ key q1, ffi_mmkv_next_key q 0 = some (key, q1) →
        next_keys (n + 1) p = some (ks ++ [key], q1) := by
  intro n
  induction n with
  | zero =>
    intro p ks q h key q1 hk
    simp only [next_keys, Option.some.injEq, Prod.mk.injEq] at h
    obtain ⟨h1, h2⟩ := h
    subst h1 h2
    simp [next_keys, hk]
  | succ n ihn =>
    intro p ks q h key q1 hk
    rw [next_keys] at h
    cases hp : ffi_mmkv_next_key p 0 with
    | none => simp [hp] at h
    | some pr =>
      obtain ⟨k0, p0⟩ := pr
      simp only [hp] at h
      cases hn : next_keys n p0 with
      | none => simp [hn] at h
      | some pr2 =>
        obtain ⟨rest, q0⟩ := pr2
        simp only [hn, Option.some.injEq, Prod.mk.injEq] at h
        obtain ⟨h1, h2⟩ := h
        subst h1 h2
        have := ihn p0 rest q0 hn key q1 hk
        rw [next_keys, hp]
        simp only [this, List.cons_append]

theorem next_keys_prefix (l : List String) :
    ∀ j, j ≤ l.length →
      next_keys j (KeysPtr.live { index := 0, datas := l })
        = some ((l.take j).map some, KeysPtr.live { index := j, datas := l }) := by
  intro j
  induction j with
  | zero => intro _; rfl
  | succ j ih =>
    intro hj
    have hlt : j < l.length := by omega
    have h1 : ¬ (l.length ≤ j) := by omega
    have hk : ffi_mmkv_next_key (KeysPtr.live { index := j, datas := l }) 0
        = some (some l[j], KeysPtr.live { index := j + 1, datas := l }) := by
      simp [ffi_mmkv_next_key, h1, List.getElem?_eq_getElem hlt]
    have ht : (l.take (j + 1)).map some = (l.take j).map some ++ [some l[j]] := by
      rw [List.take_succ, List.getElem?_eq_getElem hlt, List.map_append]
      rfl
    rw [next_keys_snoc j _ _ _ (ih (by omega)) _ _ hk, ht]

/-! ## The scratch buffer -/

theorem ffi_mmkv_tmp_result_some (H : Nat) (tmp : List UInt8) (tmp_size : Nat)
    (hblock : tmp_size ≤ tmp.length) (hH : H < tmp_size) :
    ffi_mmkv_tmp_result H (some tmp) tmp_size =
      some (some
        { vsize := (tmp_size - H) % 2 ^ 32
          vlen := 0
          value := List.replicate (tmp_size - H) 0 }) := by
  have h1 : ¬ tmp_size ≤ H := by omega
  simp [ffi_mmkv_tmp_result, h1, memset, hblock, List.take_append_eq_append_take,
    List.take_replicate, List.drop_replicate]

/-! ## Claims -/

/-- C1. Round trip: whenever `ffi_mmkv_set(h, k, v, len(v))` returns 1 (which
already forces `k` and `v` to be non-empty), a following `ffi_mmkv_get(h, k, r)`
with a result buffer of capacity `vsize > len(v)` returns 1, sets
`r.vlen = len(v)`, and the first `len(v)` bytes of `r.value` are `v`; a zero
byte follows them. -/
theorem ffi_mmkv_set_get_round_trip (h h1 : Option MMKV) (k : String) (v : List UInt8)
    (r : ffi_mmkv_result)
    (hset : ffi_mmkv_set h (some k) (some v) v.length = some (1, h1))
    (hfit : v.length < r.vsize) (h32 : r.vsize < 2 ^ 32) (hmem : r.vsize ≤ r.value.length) :
    k ≠ "" ∧ v ≠ [] ∧
    ∃ r1 : ffi_mmkv_result,
      ffi_mmkv_get h1 (some k) (some r) = some { ret := 1, mctx := h1, r := some r1 } ∧
      r1.vsize = r.vsize ∧ r1.vlen = v.length ∧ r1.value.take v.length = v ∧
      r1.value[v.length]? = some 0 := by
  cases h with
  | none => simp [ffi_mmkv_set] at hset
  | some m =>
    simp only [ffi_mmkv_set, Nat.le_zero_eq, lt_self_iff_false, if_false, List.take_length] at hset
    split at hset
    · simp at hset
    · rename_i hz
      simp only [Option.some.injEq, Prod.mk.injEq] at hset
      obtain ⟨hret, hh1⟩ := hset
      have hok : (m.set v k).1 = true := by
        by_contra hne
        rw [if_neg (fun e => hne e.symm)] at hret
        exact absurd hret (by decide)
      have hpair : m.set v k = (true, (m.set v k).2) := by
        rw [← hok]
      have hget := getBytes_set m _ k v hpair
      have hne : k ≠ "" ∧ v ≠ [] := by
        constructor
        · intro hk
          simp [MMKV.set, hk] at hok
        · intro hv
          simp [MMKV.set, hv] at hok
      refine ⟨hne.1, hne.2,
        { r with
          value := v ++ 0 :: r.value.drop (v.length + 1)
          vlen := v.length % 2 ^ 32 }, ?_, rfl, ?_, ?_, ?_⟩
      · rw [← hh1]
        exact ffi_mmkv_get_copy _ k r v hget hfit hmem
      · exact Nat.mod_eq_of_lt (by omega)
      · simp
      · show (v ++ 0 :: r.value.drop (v.length + 1))[v.length]? = some 0
        rw [List.getElem?_append_right (Nat.le_refl _)]
        simp

theorem ffi_mmkv_set_get_round_trip_witness :
    ∃ r1 : ffi_mmkv_result,
      ffi_mmkv_get (some oneByteStore) (some "k") (some (zeroResult 2))
        = some { ret := 1, mctx := some oneByteStore, r := some r1 } ∧
      r1.vlen = 1 ∧ r1.value.take 1 = [7] :=
  have h := ffi_mmkv_set_get_round_trip (some emptyStore) (some oneByteStore) "k" [7]
    (zeroResult 2) (by decide) (by decide) (by decide) (by decide)
  match h.2.2 with
  | ⟨r1, hg, _, hl, ht, _⟩ => ⟨r1, hg, hl, ht⟩

/-- C2, counterexample. The result -N does not name a sufficient size: with the
one-byte value stored under "k", a buffer of capacity 1 gets -1, so N = 1, and
that same capacity 1 is refused; only capacity 2 is accepted.  The "exactly
when" clauses fail outside `1 <= N < 2^31`: a stored value of `2^32 - 1` bytes
with a buffer of capacity 0 gets the result 1 although nothing was copied, and
an empty stored value with a buffer of capacity 0 gets the result 0 although
the key has a value. -/
theorem ffi_mmkv_get_tri_state_unrestricted_fails :
    (ffi_mmkv_get (some oneByteStore) (some "k") (some (zeroResult 1))
        = some { ret := -1, mctx := some oneByteStore, r := some (zeroResult 1) } ∧
      ffi_mmkv_get (some oneByteStore) (some "k") (some (zeroResult 2))
        = some { ret := 1, mctx := some oneByteStore,
                 r := some { vsize := 2, vlen := 1, value := [7, 0] } }) ∧
    ((zerosStore (2 ^ 32 - 1)).getBytes "k" = some (List.replicate (2 ^ 32 - 1) 0) ∧
      ffi_mmkv_get (some (zerosStore (2 ^ 32 - 1))) (some "k") (some (zeroResult 0))
        = some { ret := 1, mctx := some (zerosStore (2 ^ 32 - 1)),
                 r := some (zeroResult 0) }) ∧
    ((zerosStore 0).getBytes "k" = some [] ∧
      ffi_mmkv_get (some (zerosStore 0)) (some "k") (some (zeroResult 0))
        = some { ret := 0, mctx := some (zerosStore 0), r := some (zeroResult 0) }) := by
  have hret : toInt32 (negSizeT (2 ^ 32 - 1)) = 1 := by decide
  refine ⟨⟨by decide, by decide⟩, ⟨getBytes_zerosStore _, ?_⟩, ⟨by decide, by decide⟩⟩
  rw [ffi_mmkv_get_zerosStore (2 ^ 32 - 1) (zeroResult 0) (Nat.zero_le _), hret]

/-- C2, amended. Tri-state result of get, for a non-null handle, key and result
buffer whose memory has the announced 32-bit capacity `vsize`: the call is
defined and never changes the store.  It returns 0 and leaves the buffer
untouched when the key has no value; it returns 1 when the key has a value of
length `N < vsize`, and then the value was copied (`vlen = N`, the first `N`
bytes of the buffer are the value); when the key has a value with `vsize <= N`
the buffer is untouched.  For value lengths `1 <= N < 2^31` the result is 0
exactly when the key has no value, 1 exactly when `vsize > N`, negative
exactly when `vsize <= N`, and then it is `-N` with `N` the value's length:
the capacities that are accepted are those of at least `N + 1`, so `N` itself
is not sufficient; exactly one of the three outcomes occurs. -/
theorem ffi_mmkv_get_tri_state (m : MMKV) (key : String) (r : ffi_mmkv_result)
    (hmem : r.vsize ≤ r.value.length) (h32 : r.vsize < 2 ^ 32) :
    ∃ o : Outcome,
      ffi_mmkv_get (some m) (some key) (some r) = some o ∧
      o.mctx = some m ∧
      (m.getBytes key = none → o.ret = 0 ∧ o.r = some r) ∧
      (∀ v, m.getBytes key = some v → v.length < r.vsize →
        o.ret = 1 ∧
        ∃ r1 : ffi_mmkv_result, o.r = some r1 ∧ r1.vsize = r.vsize ∧
          r1.vlen = v.length ∧ r1.value.take v.length = v) ∧
      (∀ v, m.getBytes key = some v → r.vsize ≤ v.length → o.r = some r) ∧
      ((∀ v, m.getBytes key = some v → 1 ≤ v.length ∧ v.length < 2 ^ 31) →
        (o.ret = 0 ↔ m.getBytes key = none) ∧
        (o.ret = 1 ↔ ∃ v, m.getBytes key = some v ∧ v.length < r.vsize) ∧
        (o.ret < 0 ↔ ∃ v, m.getBytes key = some v ∧ r.vsize ≤ v.length) ∧
        (∀ v, m.getBytes key = some v → r.vsize ≤ v.length →
          o.ret = -(v.length : Int)) ∧
        (∀ v, m.getBytes key = some v → (o.ret = 1 ↔ v.length + 1 ≤ r.vsize)) ∧
        (o.ret = 0 ∨ o.ret = 1 ∨ o.ret < 0) ∧
        ¬ (o.ret = 0 ∧ o.ret = 1) ∧ ¬ (o.ret = 0 ∧ o.ret < 0) ∧
        ¬ (o.ret = 1 ∧ o.ret < 0)) := by
  have hexcl : ∀ x : Int,
      ¬ (x = 0 ∧ x = 1) ∧ ¬ (x = 0 ∧ x < 0) ∧ ¬ (x = 1 ∧ x < 0) := by
    intro x
    refine ⟨?_, ?_, ?_⟩ <;> omega
  cases hv : m.getBytes key with
  | none =>
    refine ⟨_, ffi_mmkv_get_absent m key r hv, rfl, fun _ => ⟨rfl, rfl⟩, ?_, ?_, ?_⟩
    · intro v h; exact absurd h (by simp)
    · intro v h; exact absurd h (by simp)
    · intro _
      refine ⟨by simp, by simp, by simp, ?_, ?_, Or.inl rfl, hexcl _⟩
      · intro v h; exact absurd h (by simp)
      · intro v h; exact absurd h (by simp)
  | some v =>
    by_cases hfit : v.length < r.vsize
    · refine ⟨_, ffi_mmkv_get_copy m key r v hv hfit hmem, rfl, ?_, ?_, ?_, ?_⟩
      · intro h; exact absurd h (by simp)
      · intro w hw _
        simp only [Option.some.injEq] at hw
        subst hw
        refine ⟨rfl, _, rfl, rfl, ?_, ?_⟩
        · exact Nat.mod_eq_of_lt (by omega)
        · simp
      · intro w hw hs
        simp only [Option.some.injEq] at hw
        subst hw
        omega
      · intro _
        refine ⟨by simp, by simp [hfit], ?_, ?_, ?_, Or.inr (Or.inl rfl), hexcl _⟩
        · simp; omega
        · intro w hw hs
          simp only [Option.some.injEq] at hw
          subst hw
          omega
        · intro w hw
          simp only [Option.some.injEq] at hw
          subst hw
          exact ⟨fun _ => hfit, fun _ => rfl⟩
    · have hs : r.vsize ≤ v.length := by omega
      refine ⟨_, ffi_mmkv_get_small m key r v hv hs, rfl, ?_, ?_, ?_, ?_⟩
      · intro h; exact absurd h (by simp)
      · intro w hw hf
        simp only [Option.some.injEq] at hw
        subst hw
        exact absurd hf hfit
      · intro _ _ _; rfl
      · intro hlen
        obtain ⟨h1, h2⟩ := hlen v rfl
        have hneg := toInt32_negSizeT v.length h1 (by omega)
        have hne0 : toInt32 (negSizeT v.length) ≠ 0 := by rw [hneg]; omega
        have hne1 : toInt32 (negSizeT v.length) ≠ 1 := by rw [hneg]; omega
        have hlt : toInt32 (negSizeT v.length) < 0 := by rw [hneg]; omega
        refine ⟨?_, ?_, ?_, ?_, ?_, Or.inr (Or.inr hlt), hexcl _⟩
        · exact ⟨fun h => absurd h hne0, fun h => by simp at h⟩
        · refine ⟨fun h => absurd h hne1, ?_⟩
          rintro ⟨w, hw, hf⟩
          simp only [Option.some.injEq] at hw
          subst hw
          exact absurd hf hfit
        · exact ⟨fun _ => ⟨v, rfl, hs⟩, fun _ => hlt⟩
        · intro w hw _
          simp only [Option.some.injEq] at hw
          subst hw
          exact hneg
        · intro w hw
          simp only [Option.some.injEq] at hw
          subst hw
          exact ⟨fun h => absurd h hne1, fun h => absurd (show v.length < r.vsize by omega) hfit⟩

theorem ffi_mmkv_get_tri_state_witness :
    ∃ o : Outcome,
      ffi_mmkv_get (some oneByteStore) (some "k") (some (zeroResult 2)) = some o ∧
      o.mctx = some oneByteStore ∧ o.ret = 1 ∧ (o.ret = 1 ↔ 1 + 1 ≤ (zeroResult 2).vsize) :=
  have hb : oneByteStore.getBytes "k" = some [7] := by decide
  have h := ffi_mmkv_get_tri_state oneByteStore "k" (zeroResult 2) (by decide) (by decide)
  match h with
  | ⟨o, hg, hm, _, hcopy, _, hrange⟩ =>
    have hr := hrange (fun v hv => by
      rw [hb] at hv
      simp only [Option.some.injEq] at hv
      subst hv
      decide)
    ⟨o, hg, hm, (hcopy [7] hb (by decide)).1, hr.2.2.2.2.1 [7] hb⟩

/-- C3, counterexample. With the one-byte value stored under "k", a buffer of
capacity 0 gets the result -1, and the retry with a buffer of capacity 1, the
absolute value of that result, gets -1 again instead of 1.  A stored value of
`2^31 + 1` bytes gets the positive result `2^31 - 1`, and an empty stored
value with a buffer of capacity 0 gets 0: neither is negative. -/
theorem ffi_mmkv_get_retry_same_size_fails :
    ffi_mmkv_get (some oneByteStore) (some "k") (some (zeroResult 0))
      = some { ret := -1, mctx := some oneByteStore, r := some (zeroResult 0) } ∧
    ffi_mmkv_get (some oneByteStore) (some "k") (some (zeroResult 1))
      = some { ret := -1, mctx := some oneByteStore, r := some (zeroResult 1) } ∧
    ffi_mmkv_get (some (zerosStore (2 ^ 31 + 1))) (some "k") (some (zeroResult 0))
      = some { ret := 2147483647, mctx := some (zerosStore (2 ^ 31 + 1)),
               r := some (zeroResult 0) } ∧
    ffi_mmkv_get (some (zerosStore 0)) (some "k") (some (zeroResult 0))
      = some { ret := 0, mctx := some (zerosStore 0), r := some (zeroResult 0) } := by
  refine ⟨by decide, by decide, ?_, by decide⟩
  have hret : toInt32 (negSizeT (2 ^ 31 + 1)) = 2147483647 := by decide
  rw [ffi_mmkv_get_zerosStore (2 ^ 31 + 1) (zeroResult 0) (Nat.zero_le _), hret]

/-- C3, amended. For a stored value of length `N` with `1 <= N <= 2^31` and a
result buffer with `vsize <= N`, `ffi_mmkv_get` returns a negative value whose
absolute value is `N` and changes neither the store nor the buffer; the retry
with a result buffer whose capacity `vsize` is `N + 1` (one byte more than that
absolute value, for the terminating zero byte) returns 1 with the value copied:
`vlen = N` and the first `N` bytes of the buffer are the value. -/
theorem ffi_mmkv_get_retry (m : MMKV) (key : String) (r r2 : ffi_mmkv_result)
    (v : List UInt8) (hv : m.getBytes key = some v)
    (h1 : 1 ≤ v.length) (h2 : v.length ≤ 2 ^ 31) (hsmall : r.vsize ≤ v.length)
    (hr2 : r2.vsize = v.length + 1) (hmem : r2.vsize ≤ r2.value.length) :
    ∃ (o : Outcome) (r3 : ffi_mmkv_result),
      ffi_mmkv_get (some m) (some key) (some r) = some o ∧
      o.ret < 0 ∧ o.ret.natAbs = v.length ∧ o.mctx = some m ∧ o.r = some r ∧
      r2.vsize = o.ret.natAbs + 1 ∧
      ffi_mmkv_get o.mctx (some key) (some r2)
        = some { ret := 1, mctx := some m, r := some r3 } ∧
      r3.vsize = r2.vsize ∧ r3.vlen = v.length ∧ r3.value.take v.length = v := by
  have hneg := toInt32_negSizeT v.length h1 h2
  have hg := ffi_mmkv_get_small m key r v hv hsmall
  rw [hneg] at hg
  refine ⟨_, _, hg, ?_, ?_, rfl, rfl, ?_,
    ffi_mmkv_get_copy m key r2 v hv (by omega) hmem, rfl, ?_, ?_⟩
  · show -(v.length : Int) < 0
    omega
  · show (-(v.length : Int)).natAbs = v.length
    omega
  · show r2.vsize = (-(v.length : Int)).natAbs + 1
    omega
  · exact Nat.mod_eq_of_lt (by omega)
  · simp

theorem ffi_mmkv_get_retry_witness :
    ∃ (o : Outcome) (r3 : ffi_mmkv_result),
      ffi_mmkv_get (some oneByteStore) (some "k") (some (zeroResult 1)) = some o ∧
      o.ret < 0 ∧ o.ret.natAbs = 1 ∧
      ffi_mmkv_get o.mctx (some "k") (some (zeroResult 2))
        = some { ret := 1, mctx := some oneByteStore, r := some r3 } ∧
      r3.vlen = 1 ∧ r3.value.take 1 = [7] :=
  have h := ffi_mmkv_get_retry oneByteStore "k" (zeroResult 1) (zeroResult 2) [7]
    (by decide) (by decide) (by decide) (by decide) (by decide) (by decide)
  match h with
  | ⟨o, r3, hg, hn, ha, _, _, _, hg2, _, hl, ht⟩ => ⟨o, r3, hg, hn, ha, hg2, hl, ht⟩

/-- C4, the code at the failing input. With a value of `2^32 - 1` bytes stored
under "k" (a store `ffi_mmkv_set` itself produces from the empty store) and a
result buffer of capacity 0, `ffi_mmkv_rm` returns 1 although nothing was
copied and the key was not deleted: store and buffer are unchanged and the
store still holds the value; `ffi_mmkv_get` returns 1 there as well. -/
theorem ffi_mmkv_rm_returns_one_without_delete :
    ffi_mmkv_set (some emptyStore) (some "k") (some (List.replicate (2 ^ 32 - 1) 0))
        (2 ^ 32 - 1)
      = some (1, some (zerosStore (2 ^ 32 - 1))) ∧
    ffi_mmkv_rm (some (zerosStore (2 ^ 32 - 1))) (some "k") (some (zeroResult 0))
      = some { ret := 1, mctx := some (zerosStore (2 ^ 32 - 1)), r := some (zeroResult 0) } ∧
    ffi_mmkv_get (some (zerosStore (2 ^ 32 - 1))) (some "k") (some (zeroResult 0))
      = some { ret := 1, mctx := some (zerosStore (2 ^ 32 - 1)), r := some (zeroResult 0) } ∧
    (zerosStore (2 ^ 32 - 1)).getBytes "k" = some (List.replicate (2 ^ 32 - 1) 0) := by
  have hret : toInt32 (negSizeT (2 ^ 32 - 1)) = 1 := by decide
  refine ⟨ffi_mmkv_set_zerosStore _ (by decide), ?_, ?_, getBytes_zerosStore _⟩
  · rw [ffi_mmkv_rm_zerosStore (2 ^ 32 - 1) (zeroResult 0) (Nat.zero_le _), hret]
  · rw [ffi_mmkv_get_zerosStore (2 ^ 32 - 1) (zeroResult 0) (Nat.zero_le _), hret]

/-- Remove away from that length. For every store, key and result buffer (with
the announced capacity) such that the key's value, if any, has a length `N`
that is not `2^32 - 1` modulo `2^32` (every `N < 2^32 - 1`): the call of
`ffi_mmkv_rm` is defined, returns the same value and leaves the same result
struct and bytes as `ffi_mmkv_get` on the same inputs; the result is 1 if and only if the key had a
value and the store after the call is the store with that key removed, and
then the key has no value any more; when the result is not 1 the store is
unchanged; and the value of every other key is the same before and after. -/
theorem ffi_mmkv_rm_tri_state_delete (m : MMKV) (key : String) (r : ffi_mmkv_result)
    (hmem : r.vsize ≤ r.value.length)
    (hlen : ∀ v, m.getBytes key = some v → v.length % 2 ^ 32 ≠ 2 ^ 32 - 1) :
    ∃ o : Outcome,
      ffi_mmkv_rm (some m) (some key) (some r) = some o ∧
      (∃ g : Outcome, ffi_mmkv_get (some m) (some key) (some r) = some g ∧
        g.ret = o.ret ∧ g.r = o.r ∧ g.mctx = some m) ∧
      (o.ret = 1 ↔
        ((m.getBytes key).isSome = true ∧ o.mctx = some (m.removeValueForKey key))) ∧
      (o.ret = 1 → ∀ m1, o.mctx = some m1 → m1.getBytes key = none) ∧
      (o.ret ≠ 1 → o.mctx = some m) ∧
      (∀ m1 other, o.mctx = some m1 → other ≠ key →
        m1.getBytes other = m.getBytes other) := by
  have hother : ∀ m1 other, some (m.removeValueForKey key) = some m1 → other ≠ key →
      m1.getBytes other = m.getBytes other := by
    intro m1 other h1 ho
    simp only [Option.some.injEq] at h1
    subst h1
    exact getBytes_removeValueForKey_ne m key other ho
  have hsame : ∀ m1 other, some m = some m1 → other ≠ key →
      m1.getBytes other = m.getBytes other := by
    intro m1 other h1 _
    simp only [Option.some.injEq] at h1
    subst h1
    rfl
  cases hv : m.getBytes key with
  | none =>
    refine ⟨_, ffi_mmkv_rm_absent m key r hv, ⟨_, ffi_mmkv_get_absent m key r hv, rfl, rfl, rfl⟩,
      ?_, ?_, ?_, hsame⟩
    · simp
    · intro h
      have h0 : (0 : Int) = 1 := h
      exact absurd h0 (by decide)
    · intro _; rfl
  | some v =>
    by_cases hfit : v.length < r.vsize
    · refine ⟨_, ffi_mmkv_rm_copy m key r v hv hfit hmem,
        ⟨_, ffi_mmkv_get_copy m key r v hv hfit hmem, rfl, rfl, rfl⟩, ?_, ?_, ?_, hother⟩
      · simp
      · intro _ m1 h1
        simp only [Option.some.injEq] at h1
        subst h1
        exact getBytes_removeValueForKey_self m key
      · intro h; exact absurd rfl h
    · have hs : r.vsize ≤ v.length := by omega
      have hne := toInt32_negSizeT_ne_one v.length (hlen v hv)
      refine ⟨_, ffi_mmkv_rm_small m key r v hv hs,
        ⟨_, ffi_mmkv_get_small m key r v hv hs, rfl, rfl, rfl⟩, ?_, ?_, ?_, hsame⟩
      · refine ⟨fun h => absurd h hne, ?_⟩
        rintro ⟨_, h1⟩
        simp only [Option.some.injEq] at h1
        have h2 := getBytes_removeValueForKey_self m key
        rw [← h1, hv] at h2
        exact absurd h2 (by simp)
      · intro h; exact absurd h hne
      · intro _; rfl

theorem ffi_mmkv_rm_tri_state_delete_witness :
    ∃ o : Outcome,
      ffi_mmkv_rm (some oneByteStore) (some "k") (some (zeroResult 2)) = some o ∧
      (o.ret = 1 ↔
        ((oneByteStore.getBytes "k").isSome = true ∧
          o.mctx = some (oneByteStore.removeValueForKey "k"))) ∧
      (o.ret ≠ 1 → o.mctx = some oneByteStore) :=
  have hb : oneByteStore.getBytes "k" = some [7] := by decide
  have h := ffi_mmkv_rm_tri_state_delete oneByteStore "k" (zeroResult 2) (by decide)
    (fun v hv => by
      rw [hb] at hv
      simp only [Option.some.injEq] at hv
      subst hv
      decide)
  match h with
  | ⟨o, hr, _, hiff, _, hne, _⟩ => ⟨o, hr, hiff, hne⟩

/-- C5. Remove then read: for a store, key `k` and result buffer large enough
for `k`'s current value (capacity above its length, if it has one), the call
`ffi_mmkv_rm(h, k, r)` is defined and the handle still addresses a store; when
`k` had a value the call returns 1 and that store is the old one with `k`
removed, when `k` had none it returns 0 and the store is the old one; either
way `k` has no value in it, so a following `ffi_mmkv_get(h, k, r2)` returns 0
for every result buffer `r2` (null included), leaving store and buffer as they
are, and `ffi_mmkv_contains(h, k)` returns 0. -/
theorem ffi_mmkv_rm_then_get_contains (m : MMKV) (key : String) (r : ffi_mmkv_result)
    (r2 : Option ffi_mmkv_result) (hmem : r.vsize ≤ r.value.length)
    (hfit : ∀ v, m.getBytes key = some v → v.length < r.vsize) :
    ∃ (o : Outcome) (m1 : MMKV),
      ffi_mmkv_rm (some m) (some key) (some r) = some o ∧
      o.mctx = some m1 ∧
      (∀ v, m.getBytes key = some v → o.ret = 1 ∧ m1 = m.removeValueForKey key) ∧
      (m.getBytes key = none → o.ret = 0 ∧ m1 = m) ∧
      m1.getBytes key = none ∧
      m1.containsKey key = false ∧
      ffi_mmkv_get o.mctx (some key) r2 = some { ret := 0, mctx := some m1, r := r2 } ∧
      ffi_mmkv_contains o.mctx (some key) = 0 := by
  have hafter : ∀ m1 : MMKV, m1.getBytes key = none →
      m1.containsKey key = false ∧
      ffi_mmkv_get (some m1) (some key) r2 = some { ret := 0, mctx := some m1, r := r2 } ∧
      ffi_mmkv_contains (some m1) (some key) = 0 := by
    intro m1 h1
    refine ⟨?_, ?_, ?_⟩
    · simp [containsKey_eq_getBytes, h1]
    · cases r2 with
      | none => simp [ffi_mmkv_get]
      | some r2 => exact ffi_mmkv_get_absent m1 key r2 h1
    · simp [ffi_mmkv_contains, containsKey_eq_getBytes, h1]
  cases hv : m.getBytes key with
  | none =>
    refine ⟨_, m, ffi_mmkv_rm_absent m key r hv, rfl, ?_, fun _ => ⟨rfl, rfl⟩, hv, hafter m hv⟩
    intro v h
    exact absurd h (by simp)
  | some v =>
    have hgone := getBytes_removeValueForKey_self m key
    refine ⟨_, m.removeValueForKey key, ffi_mmkv_rm_copy m key r v hv (hfit v hv) hmem, rfl,
      fun _ _ => ⟨rfl, rfl⟩, ?_, hgone, hafter _ hgone⟩
    intro h
    exact absurd h (by simp)

theorem ffi_mmkv_rm_then_get_contains_witness :
    ∃ (o : Outcome) (m1 : MMKV),
      ffi_mmkv_rm (some oneByteStore) (some "k") (some (zeroResult 2)) = some o ∧
      o.mctx = some m1 ∧ o.ret = 1 ∧ m1 = oneByteStore.removeValueForKey "k" ∧
      m1.getBytes "k" = none ∧
      ffi_mmkv_get o.mctx (some "k") (some (zeroResult 9))
        = some { ret := 0, mctx := some m1, r := some (zeroResult 9) } ∧
      ffi_mmkv_contains o.mctx (some "k") = 0 :=
  have hb : oneByteStore.getBytes "k" = some [7] := by decide
  have h := ffi_mmkv_rm_then_get_contains oneByteStore "k" (zeroResult 2)
    (some (zeroResult 9)) (by decide)
    (fun v hv => by
      rw [hb] at hv
      simp only [Option.some.injEq] at hv
      subst hv
      decide)
  match h with
  | ⟨o, m1, hr, hm, hsome, _, hgone, _, hget, hc⟩ =>
    ⟨o, m1, hr, hm, (hsome [7] hb).1, (hsome [7] hb).2, hgone, hget, hc⟩

/-- C6. Set rejects empty input: for every handle, `ffi_mmkv_set` returns 0
whenever `vlen = 0` or the key is the empty string, and the store is unchanged
(the value pointer, when not null, is assumed to address at least `vlen`
bytes). -/
theorem ffi_mmkv_set_rejects_empty (h : Option MMKV) (key : Option String)
    (value : Option (List UInt8)) (vlen : Nat)
    (hread : ∀ mem, value = some mem → vlen ≤ mem.length)
    (hempty : vlen = 0 ∨ key = some "") :
    ffi_mmkv_set h key value vlen = some (0, h) := by
  cases h with
  | none => simp [ffi_mmkv_set]
  | some m =>
    cases key with
    | none => simp [ffi_mmkv_set]
    | some k =>
      cases value with
      | none => simp [ffi_mmkv_set]
      | some mem =>
        by_cases hz : vlen = 0
        · simp [ffi_mmkv_set, hz]
        · have hk : k = "" := by
            rcases hempty with h0 | hk
            · exact absurd h0 hz
            · simpa using hk
          have hl : ¬ mem.length < vlen := Nat.not_lt.mpr (hread mem rfl)
          simp [ffi_mmkv_set, hz, hl, hk, MMKV.set]

theorem ffi_mmkv_set_rejects_empty_witness :
    ffi_mmkv_set (some oneByteStore) (some "") (some [1, 2]) 2 = some (0, some oneByteStore) ∧
    ffi_mmkv_set (some oneByteStore) (some "k") (some [1, 2]) 0
      = some (0, some oneByteStore) :=
  ⟨ffi_mmkv_set_rejects_empty (some oneByteStore) (some "") (some [1, 2]) 2
      (fun mem hm => by
        simp only [Option.some.injEq] at hm
        subst hm
        decide)
      (Or.inr rfl),
    ffi_mmkv_set_rejects_empty (some oneByteStore) (some "k") (some [1, 2]) 0
      (fun _ _ => Nat.zero_le _) (Or.inl rfl)⟩

/-- C7. Invalid arguments are rejected with no side effect: `ffi_mmkv_open`
returns NULL when `map_id` or `dir_path` is null, whatever `mmkvWithID` would
return, and leaves the initialisation token as it was; for a null handle
`count` returns -1, `total_size` returns 0, `all_keys` returns NULL, `close`,
`trim` and `clear` do nothing, the two expiration calls return 0; `set`, `get`,
`contains` and `rm` return 0 for a null handle, a null key, a null value
(`set`) or a null result (`get`, `rm`), and hand back the store and the result
buffer exactly as they received them. -/
theorem ffi_mmkv_null_arguments :
    (∀ f token dir_path multi_process,
      ffi_mmkv_open f token none dir_path multi_process = (none, token)) ∧
    (∀ f token map_id multi_process,
      ffi_mmkv_open f token map_id none multi_process = (none, token)) ∧
    (∀ close, ffi_mmkv_close close none = none) ∧
    ffi_mmkv_count none = -1 ∧
    (∀ totalSize, ffi_mmkv_total_size totalSize none = 0) ∧
    ffi_mmkv_all_keys none = KeysPtr.null ∧
    (∀ key value vlen, ffi_mmkv_set none key value vlen = some (0, none)) ∧
    (∀ h value vlen, ffi_mmkv_set h none value vlen = some (0, h)) ∧
    (∀ h key vlen, ffi_mmkv_set h key none vlen = some (0, h)) ∧
    (∀ key r, ffi_mmkv_get none key r = some { ret := 0, mctx := none, r := r }) ∧
    (∀ h r, ffi_mmkv_get h none r = some { ret := 0, mctx := h, r := r }) ∧
    (∀ h key, ffi_mmkv_get h key none = some { ret := 0, mctx := h, r := none }) ∧
    (∀ key, ffi_mmkv_contains none key = 0) ∧
    (∀ h, ffi_mmkv_contains h none = 0) ∧
    (∀ key r, ffi_mmkv_rm none key r = some { ret := 0, mctx := none, r := r }) ∧
    (∀ h r, ffi_mmkv_rm h none r = some { ret := 0, mctx := h, r := r }) ∧
    (∀ h key, ffi_mmkv_rm h key none = some { ret := 0, mctx := h, r := none }) ∧
    ffi_mmkv_trim none = none ∧
    ffi_mmkv_clear none = none ∧
    (∀ seconds, ffi_mmkv_enable_auto_key_expired none seconds = (0, none)) ∧
    ffi_mmkv_disable_auto_key_expire none = (0, none) := by
  refine ⟨?_, ?_, ?_, rfl, ?_, rfl, ?_, ?_, ?_, ?_, ?_, ?_, ?_, ?_, ?_, ?_, ?_, rfl, rfl,
    ?_, rfl⟩
  · intro f token dir_path multi_process
    rfl
  · intro f token map_id multi_process
    cases map_id <;> rfl
  · intro close; rfl
  · intro totalSize; rfl
  · intro key value vlen; rfl
  · intro h value vlen
    cases h <;> rfl
  · intro h key vlen
    cases h <;> cases key <;> rfl
  · intro key r; rfl
  · intro h r
    cases h <;> rfl
  · intro h key
    cases h <;> cases key <;> rfl
  · intro key; rfl
  · intro h
    cases h <;> rfl
  · intro key r; rfl
  · intro h r
    cases h <;> rfl
  · intro h key
    cases h <;> cases key <;> rfl
  · intro seconds; rfl

/-- C8, the code at the failing input. The cursor over the one-key store is
released both by a call with `reclaim_now = 1` and by the second of two calls
with `reclaim_now = 0`: each returns NULL and leaves the block freed, with
`index` set to `SIZE_MAX`.  A later call on the released cursor, with either
value of `reclaim_now`, reads the freed block and is undefined; it does not
return end-of-sequence.  On a block that is still allocated the guard
`index < 0` never holds. -/
theorem ffi_mmkv_next_key_after_release :
    ffi_mmkv_next_key (ffi_mmkv_all_keys (some oneByteStore)) 1
      = some (none, KeysPtr.freed { index := SIZE_MAX, datas := ["k"] }) ∧
    next_keys 2 (ffi_mmkv_all_keys (some oneByteStore))
      = some ([some "k", none], KeysPtr.freed { index := SIZE_MAX, datas := ["k"] }) ∧
    ffi_mmkv_next_key (KeysPtr.freed { index := SIZE_MAX, datas := ["k"] }) 0 = none ∧
    ffi_mmkv_next_key (KeysPtr.freed { index := SIZE_MAX, datas := ["k"] }) 1 = none ∧
    (∀ mkeys : ffi_mmkv_keys, ¬ mkeys.index < 0) := by
  refine ⟨by decide, by decide, rfl, rfl, fun mkeys => Nat.not_lt_zero _⟩

/-- C9. Cursor enumeration: the cursor from `ffi_mmkv_all_keys` starts at index
0 over the list `allKeys()` = `[k0, ..., k(n-1)]`, and `n + 1` successive calls
`ffi_mmkv_next_key(cursor, 0)` are all defined and return `k0, ..., k(n-1)` in
that order, each once, followed by NULL on call `n + 1`, which also releases
the cursor; for `n = 0` the first call already returns NULL. -/
theorem ffi_mmkv_all_keys_enumeration (m : MMKV) :
    ffi_mmkv_all_keys (some m) = KeysPtr.live { index := 0, datas := m.allKeys } ∧
    next_keys (m.allKeys.length + 1) (ffi_mmkv_all_keys (some m))
      = some (m.allKeys.map some ++ [none],
          KeysPtr.freed { index := SIZE_MAX, datas := m.allKeys }) ∧
    (∀ i (hi : i < m.allKeys.length),
      ∃ before after,
        next_keys i (ffi_mmkv_all_keys (some m)) = some (before, after) ∧
        ffi_mmkv_next_key after 0
          = some (some m.allKeys[i], KeysPtr.live { index := i + 1, datas := m.allKeys })) ∧
    (m.allKeys = [] →
      ffi_mmkv_next_key (ffi_mmkv_all_keys (some m)) 0
        = some (none, KeysPtr.freed { index := SIZE_MAX, datas := [] })) := by
  refine ⟨rfl, ?_, ?_, ?_⟩
  · have h := next_keys_live m.allKeys m.allKeys.length 0 (by omega)
    simpa [ffi_mmkv_all_keys] using h
  · intro i hi
    have h1 : ¬ (m.allKeys.length ≤ i) := by omega
    refine ⟨_, _, next_keys_prefix m.allKeys i (by omega), ?_⟩
    simp [ffi_mmkv_next_key, h1, List.getElem?_eq_getElem hi]
  · intro h
    simp [ffi_mmkv_all_keys, ffi_mmkv_next_key, h]

/-- C10. Writes stay inside the caller's scratch buffer. With `H` the size of
the result header, `ffi_mmkv_tmp_result(tmp, tmp_size)` returns NULL when `tmp`
is null or `tmp_size <= H`; otherwise, for a block of at least `tmp_size` bytes
and a 32-bit `tmp_size`, it returns a result with `vsize = tmp_size - H >= 1`,
`vlen = 0` and a value region that is bytes `[H, tmp_size)` of the zeroed
block.  For that result and every store and key, `ffi_mmkv_get` and
`ffi_mmkv_rm` are defined and leave the same result; when the key has a value
of length `N < vsize` they write the `N` value bytes and a zero byte at index
`N`, so `N + 1 <= vsize` and `H + N + 1 <= tmp_size`, the region keeps its
length and every byte after index `N` is as before; on the not-found and
too-small paths the result and its region are untouched. -/
theorem ffi_mmkv_tmp_result_writes_bounded (H : Nat) (tmp : List UInt8) (tmp_size : Nat)
    (hblock : tmp_size ≤ tmp.length) (h32 : tmp_size < 2 ^ 32) :
    (∀ n, ffi_mmkv_tmp_result H none n = some none) ∧
    (tmp_size ≤ H → ffi_mmkv_tmp_result H (some tmp) tmp_size = some none) ∧
    (H < tmp_size →
      ∃ (r : ffi_mmkv_result) (zeroed : List UInt8),
        ffi_mmkv_tmp_result H (some tmp) tmp_size = some (some r) ∧
        r.vsize = tmp_size - H ∧ 1 ≤ r.vsize ∧ r.vlen = 0 ∧
        memset tmp 0 tmp_size = some zeroed ∧
        r.value = (zeroed.take tmp_size).drop H ∧
        r.value.length = r.vsize ∧
        ∀ (m : MMKV) (key : String),
          ∃ g d : Outcome,
            ffi_mmkv_get (some m) (some key) (some r) = some g ∧
            ffi_mmkv_rm (some m) (some key) (some r) = some d ∧
            g.r = d.r ∧
            (∀ v, m.getBytes key = some v → v.length < r.vsize →
              v.length + 1 ≤ r.vsize ∧ H + v.length + 1 ≤ tmp_size ∧
              ∃ r1 : ffi_mmkv_result, g.r = some r1 ∧
                r1.vsize = r.vsize ∧ r1.vlen = v.length ∧
                r1.value = v ++ 0 :: r.value.drop (v.length + 1) ∧
                r1.value.length = r.value.length) ∧
            (∀ v, m.getBytes key = some v → r.vsize ≤ v.length → g.r = some r) ∧
            (m.getBytes key = none → g.r = some r)) := by
  refine ⟨fun n => rfl, ?_, ?_⟩
  · intro h
    simp [ffi_mmkv_tmp_result, h]
  · intro hH
    have hv32 : (tmp_size - H) % 2 ^ 32 = tmp_size - H := Nat.mod_eq_of_lt (by omega)
    have hres := ffi_mmkv_tmp_result_some H tmp tmp_size hblock hH
    rw [hv32] at hres
    refine ⟨_, List.replicate tmp_size 0 ++ tmp.drop tmp_size, hres, rfl, ?_, rfl, ?_, ?_, ?_, ?_⟩
    · show 1 ≤ tmp_size - H
      omega
    · simp [memset, hblock]
    · simp [List.take_append_eq_append_take, List.take_replicate, List.drop_replicate]
    · simp
    · intro m key
      cases hv : m.getBytes key with
      | none =>
        exact ⟨_, _, ffi_mmkv_get_absent m key _ hv, ffi_mmkv_rm_absent m key _ hv, rfl,
          by simp, by simp, by simp⟩
      | some v =>
        by_cases hfit : v.length < tmp_size - H
        · refine ⟨_, _, ffi_mmkv_get_copy m key _ v hv hfit (by simp),
            ffi_mmkv_rm_copy m key _ v hv hfit (by simp), rfl, ?_, ?_, by simp⟩
          · intro w hw _
            simp only [Option.some.injEq] at hw
            subst hw
            refine ⟨?_, ?_, _, rfl, rfl, ?_, rfl, ?_⟩
            · show v.length + 1 ≤ tmp_size - H
              omega
            · omega
            · exact Nat.mod_eq_of_lt (by omega)
            · simp only [List.length_append, List.length_cons, List.length_drop,
                List.length_replicate]
              omega
          · intro w hw hs
            simp only [Option.some.injEq] at hw
            subst hw
            have : tmp_size - H ≤ v.length := hs
            omega
        · have hs : tmp_size - H ≤ v.length := by omega
          refine ⟨_, _, ffi_mmkv_get_small m key _ v hv hs, ffi_mmkv_rm_small m key _ v hv hs,
            rfl, ?_, by simp, by simp⟩
          intro w hw hf
          simp only [Option.some.injEq] at hw
          subst hw
          exact absurd hf hfit

theorem ffi_mmkv_tmp_result_writes_bounded_witness :
    ∃ r : ffi_mmkv_result,
      ffi_mmkv_tmp_result 16 (some (List.replicate 20 9)) 20 = some (some r) ∧
      r.vsize = 4 ∧ r.vlen = 0 ∧ r.value.length = r.vsize :=
  have h := ffi_mmkv_tmp_result_writes_bounded 16 (List.replicate 20 9) 20
    (by decide) (by decide)
  match h.2.2 (by decide) with
  | ⟨r, _, hr, hs, _, hl, _, _, hlen, _⟩ => ⟨r, hr, hs, hl, hlen⟩

end FfiMmkv
